import Mathlib

/-!
Verification of the chunking and retrieval pipeline of the report-analysis
repository (`src/document_processing/text_chunker.py`,
`src/document_processing/pdf_service.py`, `src/vector_db/chroma_service.py`).

Python strings are modelled as lists of characters (`Str`), Python dicts used
for chunk metadata as association lists with dict-style update semantics
(`Meta`), and the Chroma collection as an ordered list of persisted records.
The similarity ranking performed by the embedding backend is abstracted as an
arbitrary `rank` function supplied to `search`; every property proved about
`search` holds for all rankings.
-/

namespace ReportAnalysis

/-- A Python string: a sequence of code points. -/
abbrev Str := List Char

/-- Python `not s.strip()`: the string is empty or all whitespace. -/
def isBlank (s : Str) : Bool := s.all Char.isWhitespace

/-- Python `re.sub(r'\r\n', '\n', text)`: replace every CRLF pair by LF,
scanning left to right. -/
def normalizeCRLF : Str → Str
  | [] => []
  | '\r' :: '\n' :: rest => '\n' :: normalizeCRLF rest
  | c :: rest => c :: normalizeCRLF rest

/-- Worker for `pySplit`: scan the input, cutting at every (leftmost,
non-overlapping) occurrence of the separator `c0 :: sep'`.  `cur` holds the
characters of the current segment in reverse.  The scan consumes at least one
character per step, so it is driven by a fuel argument (instantiated with the
input length) to keep the recursion structural; the fuel-exhausted branch is
never reached when `fuel ≥ s.length`. -/
def pySplitGo (c0 : Char) (sep' : Str) : Nat → Str → Str → List Str
  | 0, s, cur => [cur.reverse ++ s]
  | fuel + 1, s, cur =>
    match s with
    | [] => [cur.reverse]
    | c :: rest =>
      if (c0 :: sep') <+: (c :: rest) then
        cur.reverse :: pySplitGo c0 sep' fuel (List.drop sep'.length rest) []
      else
        pySplitGo c0 sep' fuel rest (c :: cur)

/-- Python `text.split(sep)` for a non-empty separator.  (Python raises
`ValueError` on an empty separator; the configured separator defaults to
`"\n"` and theorems about splitting assume it is non-empty.) -/
def pySplit (sep s : Str) : List Str :=
  match sep with
  | [] => [s]
  | c0 :: sep' => pySplitGo c0 sep' s.length s []

/-- Python `sep.join(parts)`. -/
def pyJoin (sep : Str) : List Str → Str
  | [] => []
  | [x] => x
  | x :: xs => x ++ sep ++ pyJoin sep xs

/-- Sum of `len(segment) + len(separator)` over a list of segments: the
accumulated-length accounting used by the chunker. -/
def segCost (sepLen : Nat) (l : List Str) : Nat :=
  (l.map List.length).sum + l.length * sepLen

/-- Values stored in chunk metadata dicts. -/
inductive MVal where
  | s (v : Str)
  | n (v : Nat)
deriving DecidableEq

/-- A Python dict with string keys, as an association list.  `mset` gives
dict assignment semantics (the new binding shadows and removes any old one). -/
abbrev Meta := List (String × MVal)

/-- Dict assignment `m[k] = v`. -/
def mset (m : Meta) (k : String) (v : MVal) : Meta :=
  (k, v) :: m.filter (fun kv => kv.1 != k)

/-- Dict lookup `m.get(k)`. -/
def mget (m : Meta) (k : String) : Option MVal :=
  (m.find? (fun kv => kv.1 == k)).map Prod.snd

/-- Dict update `m.update(u)`: fold dict assignment over the entries of `u`. -/
def mupdate (m : Meta) (u : Meta) : Meta :=
  u.foldl (fun acc kv => mset acc kv.1 kv.2) m

/-- Configuration consumed by `TextChunker.__init__` (defaults:
`chunk_size=1000`, `chunk_overlap=200`, `separator="\n"`, `max_chunks=1000`). -/
structure ChunkerConfig where
  chunk_size : Nat
  chunk_overlap : Nat
  separator : Str
  max_chunks : Nat
deriving DecidableEq

/-- The default chunker configuration from `TextChunker.__init__`. -/
def defaultCfg : ChunkerConfig :=
  { chunk_size := 1000, chunk_overlap := 200, separator := ['\n'], max_chunks := 1000 }

/-- Per-chunk metadata construction in `TextChunker.chunk_text` (both the
mid-loop close and the final flush):
`chunk_meta = {"length": len(chunk_text)}`, then `chunk_meta.update(metadata)`
if `metadata` is truthy, then `chunk_meta["document_id"] = document_id` if
`document_id` is truthy (an empty string is falsy). -/
def mkChunkMeta (baseMeta : Option Meta) (docId : Option Str) (ck : Str) : Meta :=
  let m : Meta := [("length", MVal.n ck.length)]
  let m := match baseMeta with
    | some b => mupdate m b
    | none => m
  match docId with
  | some d => if d = [] then m else mset m "document_id" (MVal.s d)
  | none => m

/-- The overlap-seeding loop in `TextChunker.chunk_text`: iterate over
`reversed(current_chunk)`; while `overlap_length + len(item) <= chunk_overlap`,
do `overlap_splits.insert(0, item)` and
`overlap_length += len(item) + len(separator)`; `break` otherwise.
`acc` is `overlap_length` and `coll` is `overlap_splits`. -/
def overlapGo (sepLen budget : Nat) : List Str → Nat → List Str → List Str × Nat
  | [], acc, coll => (coll, acc)
  | item :: rest, acc, coll =>
    if acc + item.length ≤ budget then
      overlapGo sepLen budget rest (acc + (item.length + sepLen)) (item :: coll)
    else (coll, acc)

/-- The seed for the next buffer computed when a chunk closes with
`chunk_overlap > 0`: the overlap loop run over the reversed buffer. -/
def overlapSplits (cfg : ChunkerConfig) (cur : List Str) : List Str × Nat :=
  overlapGo cfg.separator.length cfg.chunk_overlap cur.reverse 0 []

/-- Loop state of `TextChunker.chunk_text`: the closed chunks, their metadata,
the current buffer of segments, and the accumulated `current_length`. -/
structure ChunkState where
  chunks : List Str
  metas : List Meta
  cur : List Str
  curLen : Nat
deriving DecidableEq

/-- Closing the current chunk inside the loop of `chunk_text`: join the buffer
with the separator, record chunk and metadata, and reseed the buffer (overlap
seed when `chunk_overlap > 0`, empty otherwise). -/
def closeChunk (cfg : ChunkerConfig) (docId : Option Str) (bm : Option Meta)
    (st : ChunkState) : ChunkState :=
  let ck := pyJoin cfg.separator st.cur
  let next := if 0 < cfg.chunk_overlap then overlapSplits cfg st.cur else ([], 0)
  { chunks := st.chunks ++ [ck]
    metas := st.metas ++ [mkChunkMeta bm docId ck]
    cur := next.1
    curLen := next.2 }

/-- One non-blank iteration of the loop of `chunk_text`: close the current
chunk when adding the segment would exceed `chunk_size` and the buffer is
non-empty, then append the segment to the buffer and grow `current_length`
by `len(split) + len(separator)`. -/
def chunkStep (cfg : ChunkerConfig) (docId : Option Str) (bm : Option Meta)
    (split : Str) (st : ChunkState) : ChunkState :=
  let st1 :=
    if cfg.chunk_size < st.curLen + split.length ∧ 0 < st.curLen then
      closeChunk cfg docId bm st
    else st
  { st1 with
    cur := st1.cur ++ [split]
    curLen := st1.curLen + (split.length + cfg.separator.length) }

/-- The `for split in splits` loop of `chunk_text`: skip blank segments,
process the others with `chunkStep`, and `break` as soon as
`len(chunks) >= max_chunks` (checked after each append). -/
def chunkLoop (cfg : ChunkerConfig) (docId : Option Str) (bm : Option Meta) :
    List Str → ChunkState → ChunkState
  | [], st => st
  | split :: rest, st =>
    if isBlank split then chunkLoop cfg docId bm rest st
    else
      if cfg.max_chunks ≤ (chunkStep cfg docId bm split st).chunks.length then
        chunkStep cfg docId bm split st
      else chunkLoop cfg docId bm rest (chunkStep cfg docId bm split st)

/-- The trailing `if current_chunk:` flush of `chunk_text`: any remaining
buffered segments become one final chunk (no overlap reseeding). -/
def flushLast (cfg : ChunkerConfig) (docId : Option Str) (bm : Option Meta)
    (st : ChunkState) : ChunkState :=
  if st.cur = [] then st
  else
    { st with
      chunks := st.chunks ++ [pyJoin cfg.separator st.cur]
      metas := st.metas ++ [mkChunkMeta bm docId (pyJoin cfg.separator st.cur)] }

/-- Model of `TextChunker.chunk_text`: empty text short-circuits to `([], [])`;
otherwise normalize CRLF, split on the separator, run the chunking loop, and
flush the remaining buffer. -/
def chunk_text (cfg : ChunkerConfig) (text : Str) (docId : Option Str)
    (bm : Option Meta) : List Str × List Meta :=
  if text = [] then ([], [])
  else
    let splits := pySplit cfg.separator (normalizeCRLF text)
    let st := chunkLoop cfg docId bm splits
      { chunks := [], metas := [], cur := [], curLen := 0 }
    let st := flushLast cfg docId bm st
    (st.chunks, st.metas)

/-- Python `source.find(needle)` scanning worker: `i` is the absolute index of
the head of the remaining haystack. -/
def pyFindGo (needle : Str) : Str → Nat → Option Nat
  | [], i => if needle <+: ([] : Str) then some i else none
  | c :: rest, i =>
    if needle <+: (c :: rest) then some i else pyFindGo needle rest (i + 1)

/-- Python `hay.find(needle)`, returning `none` instead of `-1`: the index of
the first (leftmost) occurrence of `needle` in `hay`. -/
def pyFind (needle hay : Str) : Option Nat := pyFindGo needle hay 0

/-- Python slice `s[a:b]` for `0 ≤ a` and `0 ≤ b`. -/
def pySlice (s : Str) (a b : Nat) : Str := (s.drop a).take (b - a)

/-- Model of `TextChunker.create_chunk_with_context`: locate the chunk in the source
text; if absent return the chunk unchanged, otherwise return the slice from
`max(0, start - window)` to `min(len(source), end + window)`.  The `window`
argument models `window_size` after the `None`-default is resolved from
configuration. -/
def create_chunk_with_context (ck source : Str) (window : Nat) : Str :=
  match pyFind ck source with
  | none => ck
  | some s =>
    let e := s + ck.length
    pySlice source (s - window) (min source.length (e + window))

/-- A persisted chunk record in the Chroma collection: id, document text,
metadata. -/
structure Record where
  id : Str
  doc : Str
  meta : Meta
deriving DecidableEq

/-- The Chroma collection, modelled as the ordered list of records it holds. -/
structure ChromaState where
  records : List Record
deriving DecidableEq

/-- Chunk id built by `ChromaService.add_chunks`: `f"{document_id}_{i}"`. -/
def chunkId (docId : Str) (i : Nat) : Str := docId ++ '_' :: (toString i).toList

/-- The metadata list `add_chunks` synthesizes when `metadatas` is falsy:
`[{"document_id": str(document_id), "chunk_index": i} for i in range(n)]`. -/
def synthMetas (docId : Str) (n : Nat) : List Meta :=
  (List.range n).map (fun i => [("document_id", MVal.s docId), ("chunk_index", MVal.n i)])

/-- The in-place overwrite `add_chunks` performs on caller-supplied metadata:
for each index `i`, `meta["document_id"] = str(document_id)` then
`meta["chunk_index"] = i`. -/
def stampMetas (docId : Str) (ms : List Meta) : List Meta :=
  ms.enum.map (fun p => mset (mset p.2 "document_id" (MVal.s docId)) "chunk_index" (MVal.n p.1))

/-- The records `ChromaService.add_chunks` appends to the collection for a
non-empty chunk list: ids `"{document_id}_{i}"`, the chunk texts, and the
synthesized or stamped metadata (`if not metadatas:` is falsy for both `None`
and the empty list). -/
def newRecords (docId : Str) (chunks : List Str) (ms : Option (List Meta)) : List Record :=
  let metas := match ms with
    | none => synthMetas docId chunks.length
    | some l => if l = [] then synthMetas docId chunks.length else stampMetas docId l
  (((List.range chunks.length).map (chunkId docId)).zip (chunks.zip metas)).map
    (fun p => ⟨p.1, p.2.1, p.2.2⟩)

/-- Model of `ChromaService.add_chunks`: empty chunk list is rejected with `False` and
no collection write; otherwise the new records are added and `True` returned. -/
def add_chunks (st : ChromaState) (docId : Str) (chunks : List Str)
    (ms : Option (List Meta)) : ChromaState × Bool :=
  if chunks = [] then (st, false)
  else ({ records := st.records ++ newRecords docId chunks ms }, true)

/-- Model of `ChromaService.delete_document`:
`collection.delete(where={"document_id": str(document_id)})`. -/
def delete_document (st : ChromaState) (docId : Str) : ChromaState × Bool :=
  ({ records := st.records.filter
      (fun r => mget r.meta "document_id" != some (MVal.s docId)) }, true)

/-- The `where` dict built by `ChromaService.search`: start empty, merge the
caller's `filter_dict` if truthy, then set `document_id` when one is given
(a `UUID` argument is truthy exactly when present). -/
def buildWhere (filter_dict : Option Meta) (docId : Option Str) : Meta :=
  let w : Meta := []
  let w := match filter_dict with
    | some f => mupdate w f
    | none => w
  match docId with
  | some d => mset w "document_id" (MVal.s d)
  | none => w

/-- The clause `where_clause = where_filter if where_filter else None` in `search`. -/
def whereClause (filter_dict : Option Meta) (docId : Option Str) : Option Meta :=
  let w := buildWhere filter_dict docId
  if w = [] then none else some w

/-- Chroma metadata filtering: a record matches a `where` clause when every
listed key is present with the given value (`None` matches everything). -/
def matchesWhere (w : Option Meta) (m : Meta) : Bool :=
  match w with
  | none => true
  | some fl => fl.all (fun kv => mget m kv.1 == some kv.2)

/-- Model of `collection.get(where=w, limit=n)`: a metadata-only fetch, no similarity
ranking — the matching records in collection order, truncated to `n`. -/
def collGet (st : ChromaState) (w : Option Meta) (limit : Nat) : List Record :=
  (st.records.filter (fun r => matchesWhere w r.meta)).take limit

/-- Model of `collection.query(query_texts=[q], n_results=n, where=w)`: the matching
records ranked by the embedding backend's similarity — abstracted as an
arbitrary `rank` function — truncated to `n`. -/
def collQuery (rank : Record → Nat) (st : ChromaState) (n : Nat) (w : Option Meta) :
    List Record :=
  ((st.records.filter (fun r => matchesWhere w r.meta)).insertionSort
    (fun a b => rank a ≤ rank b)).take n

/-- Model of `ChromaService.search`: build the `where` clause, then dispatch — an
empty/whitespace query does a metadata-only `collection.get`, a non-empty
query does a similarity `collection.query`. -/
def search (rank : Record → Nat) (st : ChromaState) (query : Str) (n_results : Nat)
    (docId : Option Str) (filter_dict : Option Meta) : List Record :=
  let wc := whereClause filter_dict docId
  if isBlank query then collGet st wc n_results
  else collQuery rank st n_results wc

/-- A vector-store operation issued by the ingestion coordinator. -/
inductive VecOp where
  | deleteDoc (docId : Str)
  | addChunks (docId : Str) (chunks : List Str) (ms : Option (List Meta))
deriving DecidableEq

/-- Configuration of `PDFService` relevant to `process_chunks` (the chunker
configuration plus the constant metadata fields it attaches). -/
structure PdfCfg where
  chunker : ChunkerConfig
  chunking_method : Str
  processed_at : Str

/-- The document-level metadata dict `process_chunks` builds and passes to
`chunk_text` as the base metadata. -/
def processChunksBaseMeta (cfg : PdfCfg) (docId : Str) : Meta :=
  [("document_id", MVal.s docId),
   ("chunking_method", MVal.s cfg.chunking_method),
   ("chunking_size", MVal.n cfg.chunker.chunk_size),
   ("chunking_overlap", MVal.n cfg.chunker.chunk_overlap),
   ("processed_at", MVal.s cfg.processed_at)]

/-- The sequence of vector-store operations `PDFService.process_chunks`
performs for a document: chunk the text, and when chunks were produced call
`add_chunks` — and nothing else (in particular, no delete). -/
def processChunksOps (cfg : PdfCfg) (docId : Str) (text : Str) : List VecOp :=
  let r := chunk_text cfg.chunker text (some docId) (some (processChunksBaseMeta cfg docId))
  if r.1 = [] then []
  else [VecOp.addChunks docId r.1 (some r.2)]

/-- Effect of one vector-store operation on the collection. -/
def applyVecOp (st : ChromaState) (op : VecOp) : ChromaState :=
  match op with
  | .deleteDoc d => (delete_document st d).1
  | .addChunks d cs ms => (add_chunks st d cs ms).1

/-- Model of `PDFService.process_chunks`, seen through its effect on the vector store. -/
def process_chunks (cfg : PdfCfg) (st : ChromaState) (docId : Str) (text : Str) :
    ChromaState :=
  (processChunksOps cfg docId text).foldl applyVecOp st

/-- The overlap-seeding rule as the specification words it (amended reading):
walking the just-closed buffer in reverse, a segment is admitted while the
cumulative length of previously admitted segments — each counted with one
separator — plus the candidate's own length stays ≤ the overlap budget; the
walk stops at the first segment failing that check. -/
def overlapSeedSpecGo (sepLen budget : Nat) : List Str → Nat → List Str
  | [], _ => []
  | seg :: rest, cum =>
    if cum + seg.length ≤ budget then
      overlapSeedSpecGo sepLen budget rest (cum + seg.length + sepLen) ++ [seg]
    else []

/-- Spec-side description of the next-buffer seed: run the reverse walk of
`overlapSeedSpecGo` over the reversed buffer. -/
def overlapSeedSpec (sepLen budget : Nat) (buffer : List Str) : List Str :=
  overlapSeedSpecGo sepLen budget buffer.reverse 0

/-- Configuration of the safety-valve scenario: `max_chunks = 2`, one segment
per chunk (`chunk_size = 2`, no overlap, newline separator). -/
def capCfg : ChunkerConfig :=
  { chunk_size := 2, chunk_overlap := 0, separator := ['\n'], max_chunks := 2 }

/-- Input whose five segments each become their own candidate chunk under
`capCfg`. -/
def capText : Str := "aa\nbb\ncc\ndd\nee".toList

/-- Configuration exercising the overlap seeding with budget 5. -/
def olCfg : ChunkerConfig :=
  { chunk_size := 1000, chunk_overlap := 5, separator := ['\n'], max_chunks := 1000 }

/-- A loop state about to close a chunk whose buffer holds three two-character
segments. -/
def olSt : ChunkState :=
  { chunks := [], metas := [], cur := ["xx".toList, "yy".toList, "zz".toList], curLen := 9 }

/-- A `PDFService` configuration for the re-ingestion scenario: two-character
chunks, no overlap. -/
def exPdfCfg : PdfCfg :=
  { chunker := { chunk_size := 2, chunk_overlap := 0, separator := ['\n'], max_chunks := 1000 }
    chunking_method := "text_chunker".toList
    processed_at := "t0".toList }

/-- Document id used in the re-ingestion scenario. -/
def exDoc : Str := "d1".toList

/-- First ingestion text: two chunks `aa`, `bb`. -/
def exTextA : Str := "aa\nbb".toList

/-- Re-ingestion text: a single chunk `cc`. -/
def exTextB : Str := "cc".toList

/-! ### Dict algebra -/

theorem mget_cons (kv : String × MVal) (m : Meta) (k : String) :
    mget (kv :: m) k = if kv.1 = k then some kv.2 else mget m k := by
  by_cases h : kv.1 = k
  · simp [mget, List.find?_cons_of_pos, h]
  · simp [mget, List.find?_cons_of_neg, h]

theorem find_filter_of_imp {α} (p q : α → Bool) (l : List α)
    (h : ∀ a, p a = true → q a = true) :
    (l.filter q).find? p = l.find? p := by
  induction l with
  | nil => rfl
  | cons a l ih =>
    by_cases hq : q a = true
    · by_cases hp : p a = true
      · simp [List.filter_cons, hq, List.find?_cons_of_pos, hp]
      · simp [List.filter_cons, hq, List.find?_cons_of_neg, hp, ih]
    · have hp : ¬p a = true := fun hpa => hq (h a hpa)
      simp [List.filter_cons, hq, List.find?_cons_of_neg, hp, ih]

theorem mget_mset_same (m : Meta) (k : String) (v : MVal) :
    mget (mset m k v) k = some v := by
  simp [mset, mget_cons]

theorem mget_mset_ne (m : Meta) (k k' : String) (v : MVal) (h : k' ≠ k) :
    mget (mset m k v) k' = mget m k' := by
  have hfind : (m.filter (fun kv => kv.1 != k)).find? (fun kv => kv.1 == k') =
      m.find? (fun kv => kv.1 == k') := by
    apply find_filter_of_imp
    intro a ha
    have ha' : a.1 = k' := by simpa using ha
    simp [ha', h]
  unfold mget mset
  rw [List.find?_cons_of_neg, hfind]
  simp
  exact fun he => h he.symm

theorem mupdate_cons (m : Meta) (kv : String × MVal) (u : Meta) :
    mupdate m (kv :: u) = mupdate (mset m kv.1 kv.2) u := rfl

theorem mget_mupdate_of_none (u : Meta) (k : String) :
    ∀ m : Meta, mget u k = none → mget (mupdate m u) k = mget m k := by
  induction u with
  | nil => intro m _; rfl
  | cons kv u ih =>
    intro m h
    rw [mget_cons] at h
    by_cases hk : kv.1 = k
    · simp [hk] at h
    · rw [if_neg hk] at h
      rw [mupdate_cons, ih _ h, mget_mset_ne _ _ _ _ (fun he => hk he.symm)]

theorem mget_eq_none_of_not_mem (u : Meta) (k : String) (h : k ∉ u.map Prod.fst) :
    mget u k = none := by
  unfold mget
  rw [List.find?_eq_none.mpr]
  · rfl
  · intro kv hkv hek
    exact h (List.mem_map.mpr ⟨kv, hkv, by simpa using hek⟩)

theorem mget_mupdate_of_some (u : Meta) (k : String) (v : MVal) :
    ∀ m : Meta, (u.map Prod.fst).Nodup → mget u k = some v →
      mget (mupdate m u) k = some v := by
  induction u with
  | nil => intro m _ h; simp [mget] at h
  | cons kv u ih =>
    intro m hnd h
    rw [mget_cons] at h
    rw [List.map_cons, List.nodup_cons] at hnd
    by_cases hk : kv.1 = k
    · rw [if_pos hk] at h
      obtain rfl : kv.2 = v := by injection h
      have hnone : mget u k = none :=
        mget_eq_none_of_not_mem u k (by rw [← hk]; exact hnd.1)
      rw [mupdate_cons, mget_mupdate_of_none u k _ hnone, hk, mget_mset_same]
    · rw [if_neg hk] at h
      rw [mupdate_cons]
      exact ih _ hnd.2 h

/-! ### Metadata construction in `chunk_text` -/

theorem mget_mkChunkMeta_docId (bm : Option Meta) (d ck : Str) (hd : d ≠ []) :
    mget (mkChunkMeta bm (some d) ck) "document_id" = some (MVal.s d) := by
  unfold mkChunkMeta
  cases bm <;> simp [hd, mget_mset_same]

theorem mget_mkChunkMeta_length (b : Meta) (docId : Option Str) (ck : Str) (v : MVal)
    (hnd : (b.map Prod.fst).Nodup) (h : mget b "length" = some v) :
    mget (mkChunkMeta (some b) docId ck) "length" = some v := by
  unfold mkChunkMeta
  have hbase : mget (mupdate [("length", MVal.n ck.length)] b) "length" = some v :=
    mget_mupdate_of_some b "length" v _ hnd h
  cases docId with
  | none => simpa using hbase
  | some d =>
    by_cases hd : d = []
    · simpa [hd] using hbase
    · simp only [if_neg hd]
      rw [mget_mset_ne _ _ _ _ (show "length" ≠ "document_id" by decide)]
      exact hbase

/-! ### Overlap seeding -/

theorem overlapGo_fst_eq_spec (sepLen budget : Nat) :
    ∀ (l : List Str) (acc : Nat) (coll : List Str),
      (overlapGo sepLen budget l acc coll).1 =
        overlapSeedSpecGo sepLen budget l acc ++ coll := by
  intro l
  induction l with
  | nil => intro acc coll; simp [overlapGo, overlapSeedSpecGo]
  | cons seg rest ih =>
    intro acc coll
    unfold overlapGo overlapSeedSpecGo
    by_cases h : acc + seg.length ≤ budget
    · rw [if_pos h, if_pos h, ih, ← Nat.add_assoc]
      simp
    · rw [if_neg h, if_neg h]
      simp

theorem overlapSeedSpecGo_suffix (sepLen budget : Nat) :
    ∀ (l : List Str) (acc : Nat),
      overlapSeedSpecGo sepLen budget l acc <:+ l.reverse := by
  intro l
  induction l with
  | nil => intro acc; simp [overlapSeedSpecGo]
  | cons seg rest ih =>
    intro acc
    unfold overlapSeedSpecGo
    by_cases h : acc + seg.length ≤ budget
    · rw [if_pos h, List.reverse_cons]
      obtain ⟨t, ht⟩ := ih (acc + seg.length + sepLen)
      exact ⟨t, by rw [← List.append_assoc, ht]⟩
    · rw [if_neg h]
      exact List.nil_suffix

theorem overlapSeedSpec_suffix (sepLen budget : Nat) (buffer : List Str) :
    overlapSeedSpec sepLen budget buffer <:+ buffer := by
  have := overlapSeedSpecGo_suffix sepLen budget buffer.reverse 0
  rwa [List.reverse_reverse] at this

/-! ### Structural facts about the chunking loop -/

theorem chunkLoop_cons (cfg : ChunkerConfig) (docId : Option Str) (bm : Option Meta)
    (split : Str) (rest : List Str) (st : ChunkState) :
    chunkLoop cfg docId bm (split :: rest) st =
      if isBlank split then chunkLoop cfg docId bm rest st
      else
        if cfg.max_chunks ≤ (chunkStep cfg docId bm split st).chunks.length then
          chunkStep cfg docId bm split st
        else chunkLoop cfg docId bm rest (chunkStep cfg docId bm split st) := rfl

theorem closeChunk_chunks (cfg : ChunkerConfig) (docId : Option Str) (bm : Option Meta)
    (st : ChunkState) :
    (closeChunk cfg docId bm st).chunks = st.chunks ++ [pyJoin cfg.separator st.cur] := rfl

theorem closeChunk_metas (cfg : ChunkerConfig) (docId : Option Str) (bm : Option Meta)
    (st : ChunkState) :
    (closeChunk cfg docId bm st).metas =
      st.metas ++ [mkChunkMeta bm docId (pyJoin cfg.separator st.cur)] := rfl

theorem chunkStep_of_no_close (cfg : ChunkerConfig) (docId : Option Str) (bm : Option Meta)
    (split : Str) (st : ChunkState)
    (h : ¬(cfg.chunk_size < st.curLen + split.length ∧ 0 < st.curLen)) :
    chunkStep cfg docId bm split st =
      { st with
        cur := st.cur ++ [split]
        curLen := st.curLen + (split.length + cfg.separator.length) } := by
  unfold chunkStep
  rw [if_neg h]

theorem chunkStep_of_close (cfg : ChunkerConfig) (docId : Option Str) (bm : Option Meta)
    (split : Str) (st : ChunkState)
    (h : cfg.chunk_size < st.curLen + split.length ∧ 0 < st.curLen) :
    chunkStep cfg docId bm split st =
      { closeChunk cfg docId bm st with
        cur := (closeChunk cfg docId bm st).cur ++ [split]
        curLen := (closeChunk cfg docId bm st).curLen + (split.length + cfg.separator.length) } := by
  unfold chunkStep
  rw [if_pos h]

theorem chunkStep_chunks_le (cfg : ChunkerConfig) (docId : Option Str) (bm : Option Meta)
    (split : Str) (st : ChunkState) :
    (chunkStep cfg docId bm split st).chunks.length ≤ st.chunks.length + 1 := by
  by_cases h : cfg.chunk_size < st.curLen + split.length ∧ 0 < st.curLen
  · rw [chunkStep_of_close cfg docId bm split st h]
    simp [closeChunk_chunks]
  · rw [chunkStep_of_no_close cfg docId bm split st h]
    simp

theorem chunkStep_chunks_of_curLen_zero (cfg : ChunkerConfig) (docId : Option Str)
    (bm : Option Meta) (split : Str) (st : ChunkState) (h : st.curLen = 0) :
    (chunkStep cfg docId bm split st).chunks = st.chunks := by
  rw [chunkStep_of_no_close cfg docId bm split st (by omega)]

theorem chunkStep_cur_ne (cfg : ChunkerConfig) (docId : Option Str) (bm : Option Meta)
    (split : Str) (st : ChunkState) :
    (chunkStep cfg docId bm split st).cur ≠ [] := by
  by_cases h : cfg.chunk_size < st.curLen + split.length ∧ 0 < st.curLen
  · rw [chunkStep_of_close cfg docId bm split st h]; simp
  · rw [chunkStep_of_no_close cfg docId bm split st h]; simp

theorem chunkStep_len_eq (cfg : ChunkerConfig) (docId : Option Str) (bm : Option Meta)
    (split : Str) (st : ChunkState) (h : st.chunks.length = st.metas.length) :
    (chunkStep cfg docId bm split st).chunks.length =
      (chunkStep cfg docId bm split st).metas.length := by
  by_cases hc : cfg.chunk_size < st.curLen + split.length ∧ 0 < st.curLen
  · rw [chunkStep_of_close cfg docId bm split st hc]
    simp [closeChunk_chunks, closeChunk_metas, h]
  · rw [chunkStep_of_no_close cfg docId bm split st hc]
    exact h

theorem chunkLoop_len_eq (cfg : ChunkerConfig) (docId : Option Str) (bm : Option Meta) :
    ∀ (splits : List Str) (st : ChunkState), st.chunks.length = st.metas.length →
      (chunkLoop cfg docId bm splits st).chunks.length =
        (chunkLoop cfg docId bm splits st).metas.length := by
  intro splits
  induction splits with
  | nil => intro st h; exact h
  | cons split rest ih =>
    intro st h
    rw [chunkLoop_cons]
    by_cases hb : isBlank split
    · rw [if_pos hb]; exact ih st h
    · rw [if_neg hb]
      by_cases hbreak : cfg.max_chunks ≤ (chunkStep cfg docId bm split st).chunks.length
      · rw [if_pos hbreak]; exact chunkStep_len_eq cfg docId bm split st h
      · rw [if_neg hbreak]; exact ih _ (chunkStep_len_eq cfg docId bm split st h)

theorem flushLast_len_eq (cfg : ChunkerConfig) (docId : Option Str) (bm : Option Meta)
    (st : ChunkState) (h : st.chunks.length = st.metas.length) :
    (flushLast cfg docId bm st).chunks.length = (flushLast cfg docId bm st).metas.length := by
  unfold flushLast
  by_cases hc : st.cur = []
  · rw [if_pos hc]; exact h
  · rw [if_neg hc]; simp [h]

theorem chunk_text_len_eq (cfg : ChunkerConfig) (text : Str) (docId : Option Str)
    (bm : Option Meta) :
    (chunk_text cfg text docId bm).1.length = (chunk_text cfg text docId bm).2.length := by
  unfold chunk_text
  by_cases ht : text = []
  · rw [if_pos ht]
    rfl
  · rw [if_neg ht]
    exact flushLast_len_eq cfg docId bm _ (chunkLoop_len_eq cfg docId bm _ _ rfl)

theorem chunk_text_of_ne (cfg : ChunkerConfig) (text : Str) (docId : Option Str)
    (bm : Option Meta) (ht : text ≠ []) :
    chunk_text cfg text docId bm =
      ((flushLast cfg docId bm (chunkLoop cfg docId bm
          (pySplit cfg.separator (normalizeCRLF text))
          { chunks := [], metas := [], cur := [], curLen := 0 })).chunks,
       (flushLast cfg docId bm (chunkLoop cfg docId bm
          (pySplit cfg.separator (normalizeCRLF text))
          { chunks := [], metas := [], cur := [], curLen := 0 })).metas) := by
  unfold chunk_text
  rw [if_neg ht]

/-! ### The max_chunks cap -/

theorem chunkLoop_cap (cfg : ChunkerConfig) (docId : Option Str) (bm : Option Meta) :
    ∀ (splits : List Str) (st : ChunkState),
      (st.chunks.length < cfg.max_chunks ∨
        (st.chunks.length ≤ cfg.max_chunks ∧ st.curLen = 0)) →
      (chunkLoop cfg docId bm splits st).chunks.length ≤ cfg.max_chunks := by
  intro splits
  induction splits with
  | nil =>
    intro st h
    rcases h with h | ⟨h, _⟩
    · exact Nat.le_of_lt h
    · exact h
  | cons split rest ih =>
    intro st h
    rw [chunkLoop_cons]
    by_cases hb : isBlank split
    · rw [if_pos hb]; exact ih st h
    · rw [if_neg hb]
      have hstep : (chunkStep cfg docId bm split st).chunks.length ≤ cfg.max_chunks := by
        rcases h with h | ⟨h, hz⟩
        · have := chunkStep_chunks_le cfg docId bm split st
          omega
        · rw [chunkStep_chunks_of_curLen_zero cfg docId bm split st hz]
          exact h
      by_cases hbreak : cfg.max_chunks ≤ (chunkStep cfg docId bm split st).chunks.length
      · rw [if_pos hbreak]; exact hstep
      · rw [if_neg hbreak]
        exact ih _ (Or.inl (by omega))

theorem flushLast_chunks_le (cfg : ChunkerConfig) (docId : Option Str) (bm : Option Meta)
    (st : ChunkState) :
    (flushLast cfg docId bm st).chunks.length ≤ st.chunks.length + 1 := by
  unfold flushLast
  by_cases hc : st.cur = []
  · rw [if_pos hc]; omega
  · rw [if_neg hc]; simp

/-! ### Every metadata entry of `chunk_text` is a `mkChunkMeta` -/

theorem chunkStep_metas_shape (cfg : ChunkerConfig) (docId : Option Str) (bm : Option Meta)
    (split : Str) (st : ChunkState)
    (h : ∀ m ∈ st.metas, ∃ ck, m = mkChunkMeta bm docId ck) :
    ∀ m ∈ (chunkStep cfg docId bm split st).metas, ∃ ck, m = mkChunkMeta bm docId ck := by
  by_cases hc : cfg.chunk_size < st.curLen + split.length ∧ 0 < st.curLen
  · rw [chunkStep_of_close cfg docId bm split st hc]
    intro m hm
    simp only [closeChunk_metas, List.mem_append, List.mem_singleton] at hm
    rcases hm with hm | rfl
    · exact h m hm
    · exact ⟨_, rfl⟩
  · rw [chunkStep_of_no_close cfg docId bm split st hc]
    exact h

theorem chunkLoop_metas_shape (cfg : ChunkerConfig) (docId : Option Str) (bm : Option Meta) :
    ∀ (splits : List Str) (st : ChunkState),
      (∀ m ∈ st.metas, ∃ ck, m = mkChunkMeta bm docId ck) →
      ∀ m ∈ (chunkLoop cfg docId bm splits st).metas, ∃ ck, m = mkChunkMeta bm docId ck := by
  intro splits
  induction splits with
  | nil => intro st h; exact h
  | cons split rest ih =>
    intro st h
    rw [chunkLoop_cons]
    by_cases hb : isBlank split
    · rw [if_pos hb]; exact ih st h
    · rw [if_neg hb]
      by_cases hbreak : cfg.max_chunks ≤ (chunkStep cfg docId bm split st).chunks.length
      · rw [if_pos hbreak]; exact chunkStep_metas_shape cfg docId bm split st h
      · rw [if_neg hbreak]; exact ih _ (chunkStep_metas_shape cfg docId bm split st h)

theorem flushLast_metas_shape (cfg : ChunkerConfig) (docId : Option Str) (bm : Option Meta)
    (st : ChunkState)
    (h : ∀ m ∈ st.metas, ∃ ck, m = mkChunkMeta bm docId ck) :
    ∀ m ∈ (flushLast cfg docId bm st).metas, ∃ ck, m = mkChunkMeta bm docId ck := by
  unfold flushLast
  by_cases hc : st.cur = []
  · rw [if_pos hc]; exact h
  · rw [if_neg hc]
    intro m hm
    simp only [List.mem_append, List.mem_singleton] at hm
    rcases hm with hm | rfl
    · exact h m hm
    · exact ⟨_, rfl⟩

theorem chunk_text_metas_shape (cfg : ChunkerConfig) (text : Str) (docId : Option Str)
    (bm : Option Meta) :
    ∀ m ∈ (chunk_text cfg text docId bm).2, ∃ ck, m = mkChunkMeta bm docId ck := by
  by_cases ht : text = []
  · subst ht
    intro m hm
    simp [chunk_text] at hm
  · rw [chunk_text_of_ne cfg text docId bm ht]
    exact flushLast_metas_shape cfg docId bm _
      (chunkLoop_metas_shape cfg docId bm _ _ (by intro m hm; simp at hm))

/-! ### Split and join algebra -/

theorem pyJoin_cons (sep x : Str) (l : List Str) (h : l ≠ []) :
    pyJoin sep (x :: l) = x ++ sep ++ pyJoin sep l := by
  cases l with
  | nil => exact absurd rfl h
  | cons y ys => rfl

theorem pySplitGo_ne_nil (c0 : Char) (sep' : Str) :
    ∀ (fuel : Nat) (s cur : Str), pySplitGo c0 sep' fuel s cur ≠ [] := by
  intro fuel
  induction fuel with
  | zero => intro s cur; simp [pySplitGo]
  | succ fuel ih =>
    intro s cur
    cases s with
    | nil => simp [pySplitGo]
    | cons c rest =>
      unfold pySplitGo
      dsimp only
      by_cases hpre : (c0 :: sep') <+: (c :: rest)
      · rw [if_pos hpre]
        simp
      · rw [if_neg hpre]
        exact ih rest (c :: cur)

theorem pyJoin_pySplitGo (c0 : Char) (sep' : Str) :
    ∀ (fuel : Nat) (s cur : Str), s.length ≤ fuel →
      pyJoin (c0 :: sep') (pySplitGo c0 sep' fuel s cur) = cur.reverse ++ s := by
  intro fuel
  induction fuel with
  | zero =>
    intro s cur hf
    obtain rfl : s = [] := by
      cases s with
      | nil => rfl
      | cons c rest => simp at hf
    simp [pySplitGo, pyJoin]
  | succ fuel ih =>
    intro s cur hf
    cases s with
    | nil => simp [pySplitGo, pyJoin]
    | cons c rest =>
      unfold pySplitGo
      dsimp only
      by_cases hpre : (c0 :: sep') <+: (c :: rest)
      · rw [if_pos hpre]
        rw [pyJoin_cons _ _ _ (pySplitGo_ne_nil c0 sep' _ _ _),
          ih _ [] (by simp at hf; have := List.length_drop sep'.length rest; omega)]
        obtain ⟨t, ht⟩ := hpre
        have hd : List.drop sep'.length rest = t := by
          have := List.drop_left (c0 :: sep') t
          rw [ht] at this
          simpa using this
        rw [hd]
        simp only [List.reverse_nil, List.nil_append, List.append_assoc, ht]
      · rw [if_neg hpre, ih rest (c :: cur) (by simp at hf; omega)]
        simp

theorem pyJoin_pySplit (sep s : Str) (h : sep ≠ []) :
    pyJoin sep (pySplit sep s) = s := by
  cases sep with
  | nil => exact absurd rfl h
  | cons c0 sep' =>
    simpa using pyJoin_pySplitGo c0 sep' s.length s [] (Nat.le_refl _)

theorem pySplit_ne_nil (sep s : Str) : pySplit sep s ≠ [] := by
  cases sep with
  | nil => simp [pySplit]
  | cons c0 sep' => exact pySplitGo_ne_nil c0 sep' s.length s []

theorem segCost_cons (k : Nat) (x : Str) (l : List Str) :
    segCost k (x :: l) = (x.length + k) + segCost k l := by
  simp [segCost, Nat.succ_mul]
  omega

theorem pyJoin_length (sep : Str) :
    ∀ (parts : List Str), parts ≠ [] →
      (pyJoin sep parts).length + sep.length = segCost sep.length parts := by
  intro parts
  induction parts with
  | nil => intro h; exact absurd rfl h
  | cons x l ih =>
    intro _
    cases hl : l with
    | nil =>
      simp [pyJoin, segCost]
    | cons y ys =>
      rw [← hl, pyJoin_cons sep x l (by simp [hl]), segCost_cons, ← ih (by simp [hl])]
      simp
      try omega

theorem segCost_pySplit (sep s : Str) (h : sep ≠ []) :
    segCost sep.length (pySplit sep s) = s.length + sep.length := by
  rw [← pyJoin_length sep (pySplit sep s) (pySplit_ne_nil sep s), pyJoin_pySplit sep s h]

theorem normalizeCRLF_length_le (t : Str) : (normalizeCRLF t).length ≤ t.length := by
  induction t using normalizeCRLF.induct with
  | case1 => simp [normalizeCRLF]
  | case2 rest ih =>
    unfold normalizeCRLF
    simp only [List.length_cons]
    omega
  | case3 c rest h ih =>
    unfold normalizeCRLF
    simp only [List.length_cons]
    omega

/-! ### Small-input behaviour of the loop -/

theorem chunkLoop_no_close (cfg : ChunkerConfig) (docId : Option Str) (bm : Option Meta)
    (T : Nat) (hT : T < cfg.chunk_size) :
    ∀ (splits : List Str) (st : ChunkState), st.chunks = [] → st.metas = [] →
      st.curLen + segCost cfg.separator.length splits ≤ T + cfg.separator.length →
      (chunkLoop cfg docId bm splits st).chunks = [] ∧
      (chunkLoop cfg docId bm splits st).metas = [] := by
  intro splits
  induction splits with
  | nil => intro st h1 h2 _; exact ⟨h1, h2⟩
  | cons split rest ih =>
    intro st h1 h2 h3
    rw [segCost_cons] at h3
    rw [chunkLoop_cons]
    by_cases hb : isBlank split
    · rw [if_pos hb]
      refine ih st h1 h2 ?_
      omega
    · rw [if_neg hb]
      have hcl : ¬(cfg.chunk_size < st.curLen + split.length ∧ 0 < st.curLen) := by
        rintro ⟨hgt, -⟩
        have : st.curLen + split.length ≤ T := by omega
        omega
      have hstep := chunkStep_of_no_close cfg docId bm split st hcl
      by_cases hbreak : cfg.max_chunks ≤ (chunkStep cfg docId bm split st).chunks.length
      · rw [if_pos hbreak, hstep]
        exact ⟨h1, h2⟩
      · rw [if_neg hbreak]
        refine ih _ (by rw [hstep]; exact h1) (by rw [hstep]; exact h2) ?_
        rw [hstep]
        simp only []
        omega

theorem chunkLoop_cur_ne (cfg : ChunkerConfig) (docId : Option Str) (bm : Option Meta) :
    ∀ (splits : List Str) (st : ChunkState), st.cur ≠ [] →
      (chunkLoop cfg docId bm splits st).cur ≠ [] := by
  intro splits
  induction splits with
  | nil => intro st h; exact h
  | cons split rest ih =>
    intro st h
    rw [chunkLoop_cons]
    by_cases hb : isBlank split
    · rw [if_pos hb]; exact ih st h
    · rw [if_neg hb]
      by_cases hbreak : cfg.max_chunks ≤ (chunkStep cfg docId bm split st).chunks.length
      · rw [if_pos hbreak]; exact chunkStep_cur_ne cfg docId bm split st
      · rw [if_neg hbreak]; exact ih _ (chunkStep_cur_ne cfg docId bm split st)

theorem chunkLoop_cur_ne_of_nonblank (cfg : ChunkerConfig) (docId : Option Str)
    (bm : Option Meta) :
    ∀ (splits : List Str) (st : ChunkState),
      (∃ s ∈ splits, isBlank s = false) →
      (chunkLoop cfg docId bm splits st).cur ≠ [] := by
  intro splits
  induction splits with
  | nil => rintro st ⟨s, hs, -⟩; simp at hs
  | cons split rest ih =>
    rintro st ⟨s, hs, hsb⟩
    rw [chunkLoop_cons]
    by_cases hb : isBlank split
    · rw [if_pos hb]
      rcases List.mem_cons.mp hs with rfl | hs'
      · rw [hb] at hsb; cases hsb
      · exact ih st ⟨s, hs', hsb⟩
    · rw [if_neg hb]
      by_cases hbreak : cfg.max_chunks ≤ (chunkStep cfg docId bm split st).chunks.length
      · rw [if_pos hbreak]; exact chunkStep_cur_ne cfg docId bm split st
      · rw [if_neg hbreak]
        exact chunkLoop_cur_ne cfg docId bm rest _ (chunkStep_cur_ne cfg docId bm split st)

theorem flushLast_chunks_of_empty (cfg : ChunkerConfig) (docId : Option Str)
    (bm : Option Meta) (st : ChunkState) (h : st.chunks = []) :
    (flushLast cfg docId bm st).chunks.length = if st.cur = [] then 0 else 1 := by
  unfold flushLast
  by_cases hc : st.cur = []
  · rw [if_pos hc, if_pos hc, h]; rfl
  · rw [if_neg hc, if_neg hc]
    simp [h]

/-! ### Correctness of `pyFind` (Python `str.find`) -/

theorem pyFindGo_sound (needle : Str) :
    ∀ (hay : Str) (i k : Nat), pyFindGo needle hay i = some k →
      i ≤ k ∧ needle <+: hay.drop (k - i) ∧
        ∀ j, j < k - i → ¬ needle <+: hay.drop j := by
  intro hay
  induction hay with
  | nil =>
    intro i k h
    by_cases hp : needle <+: ([] : Str)
    · rw [pyFindGo, if_pos hp] at h
      obtain rfl : i = k := by injection h
      refine ⟨Nat.le_refl i, by simpa [Nat.sub_self] using hp, ?_⟩
      intro j hj
      omega
    · rw [pyFindGo, if_neg hp] at h
      cases h
  | cons c rest ih =>
    intro i k h
    by_cases hp : needle <+: (c :: rest)
    · rw [pyFindGo, if_pos hp] at h
      obtain rfl : i = k := by injection h
      refine ⟨Nat.le_refl i, by simpa [Nat.sub_self] using hp, ?_⟩
      intro j hj
      omega
    · rw [pyFindGo, if_neg hp] at h
      obtain ⟨hik, hpre, hmin⟩ := ih (i + 1) k h
      refine ⟨by omega, ?_, ?_⟩
      · have hd : (c :: rest).drop (k - i) = rest.drop (k - (i + 1)) := by
          have he : k - i = (k - (i + 1)) + 1 := by omega
          rw [he, List.drop_succ_cons]
        rw [hd]
        exact hpre
      · intro j hj
        cases j with
        | zero => simpa using hp
        | succ j' =>
          rw [List.drop_succ_cons]
          exact hmin j' (by omega)

theorem pyFindGo_none (needle : Str) :
    ∀ (hay : Str) (i : Nat), pyFindGo needle hay i = none →
      ∀ j, ¬ needle <+: hay.drop j := by
  intro hay
  induction hay with
  | nil =>
    intro i h j
    by_cases hp : needle <+: ([] : Str)
    · rw [pyFindGo, if_pos hp] at h; cases h
    · simpa [List.drop_nil] using hp
  | cons c rest ih =>
    intro i h j
    by_cases hp : needle <+: (c :: rest)
    · rw [pyFindGo, if_pos hp] at h; cases h
    · rw [pyFindGo, if_neg hp] at h
      cases j with
      | zero => simpa using hp
      | succ j' =>
        rw [List.drop_succ_cons]
        exact ih (i + 1) h j'

theorem pyFind_some (needle hay : Str) (k : Nat) (h : pyFind needle hay = some k) :
    (needle <+: hay.drop k) ∧ ∀ j, j < k → ¬ needle <+: hay.drop j := by
  obtain ⟨-, hpre, hmin⟩ := pyFindGo_sound needle hay 0 k h
  rw [Nat.sub_zero] at hpre
  exact ⟨hpre, fun j hj => hmin j (by omega)⟩

theorem pyFind_none (needle hay : Str) (h : pyFind needle hay = none) :
    ∀ j, ¬ needle <+: hay.drop j :=
  pyFindGo_none needle hay 0 h

/-! ### The records appended by `add_chunks` -/

theorem stampMetas_length (docId : Str) (ms : List Meta) :
    (stampMetas docId ms).length = ms.length := by
  simp [stampMetas]

theorem synthMetas_length (docId : Str) (n : Nat) :
    (synthMetas docId n).length = n := by
  simp [synthMetas]

theorem mget_stamped (m : Meta) (docId : Str) (i : Nat) :
    mget (mset (mset m "document_id" (MVal.s docId)) "chunk_index" (MVal.n i))
        "document_id" = some (MVal.s docId) ∧
    mget (mset (mset m "document_id" (MVal.s docId)) "chunk_index" (MVal.n i))
        "chunk_index" = some (MVal.n i) := by
  constructor
  · rw [mget_mset_ne _ _ _ _ (show "document_id" ≠ "chunk_index" by decide), mget_mset_same]
  · rw [mget_mset_same]

theorem mget_synth (docId : Str) (i : Nat) :
    mget [("document_id", MVal.s docId), ("chunk_index", MVal.n i)] "document_id"
        = some (MVal.s docId) ∧
    mget [("document_id", MVal.s docId), ("chunk_index", MVal.n i)] "chunk_index"
        = some (MVal.n i) := by
  constructor <;> simp [mget_cons]

theorem newRecords_length (docId : Str) (chunks : List Str) (ms : List Meta)
    (hlen : ms.length = chunks.length) :
    (newRecords docId chunks (some ms)).length = chunks.length := by
  unfold newRecords
  by_cases hms : ms = []
  · simp [hms, synthMetas_length]
  · simp [hms, stampMetas_length, hlen]

theorem newRecords_get (docId : Str) (chunks : List Str) (ms : List Meta)
    (hlen : ms.length = chunks.length) (i : Nat)
    (hi : i < (newRecords docId chunks (some ms)).length) :
    ((newRecords docId chunks (some ms)).get ⟨i, hi⟩).id = chunkId docId i ∧
    mget ((newRecords docId chunks (some ms)).get ⟨i, hi⟩).meta "document_id"
        = some (MVal.s docId) ∧
    mget ((newRecords docId chunks (some ms)).get ⟨i, hi⟩).meta "chunk_index"
        = some (MVal.n i) := by
  have hi' : i < chunks.length := by
    rwa [newRecords_length docId chunks ms hlen] at hi
  have him : i < ms.length := by omega
  have hms : ms ≠ [] := by
    intro he
    rw [he] at hlen
    simp at hlen
    omega
  have h1 : (newRecords docId chunks (some ms))[i] =
      ⟨chunkId docId i, chunks[i],
        mset (mset ms[i] "document_id" (MVal.s docId)) "chunk_index" (MVal.n i)⟩ := by
    simp [newRecords, if_neg hms, stampMetas, List.getElem_map, List.getElem_zip,
      List.getElem_enum, List.getElem_range]
  rw [List.get_eq_getElem, h1]
  exact ⟨rfl, mget_stamped _ docId i⟩

/-! ### Search membership -/

theorem buildWhere_some_eq (fl : Option Meta) (d : Str) :
    buildWhere fl (some d) =
      ("document_id", MVal.s d) ::
        (buildWhere fl none).filter (fun kv => kv.1 != "document_id") := rfl

theorem buildWhere_docId (fl : Option Meta) (d : Str) :
    mget (buildWhere fl (some d)) "document_id" = some (MVal.s d) := by
  rw [buildWhere_some_eq, mget_cons]
  simp

theorem whereClause_some_doc (fl : Option Meta) (d : Str) :
    whereClause fl (some d) = some (buildWhere fl (some d)) := by
  unfold whereClause
  rw [if_neg]
  rw [buildWhere_some_eq]
  simp

theorem matchesWhere_some (fl : Meta) (m : Meta) :
    matchesWhere (some fl) m = fl.all (fun kv => mget m kv.1 == some kv.2) := rfl

theorem matchesWhere_docId (fl : Option Meta) (d : Str) (m : Meta)
    (h : matchesWhere (some (buildWhere fl (some d))) m = true) :
    mget m "document_id" = some (MVal.s d) := by
  rw [matchesWhere_some, buildWhere_some_eq, List.all_cons] at h
  have := (Bool.and_eq_true _ _).mp h
  simpa using this.1

theorem mem_search_matches (rank : Record → Nat) (st : ChromaState) (query : Str)
    (n : Nat) (docId : Option Str) (fl : Option Meta) (r : Record)
    (hr : r ∈ search rank st query n docId fl) :
    matchesWhere (whereClause fl docId) r.meta = true := by
  unfold search at hr
  by_cases hb : isBlank query
  · rw [if_pos hb] at hr
    unfold collGet at hr
    exact (List.mem_filter.mp (List.mem_of_mem_take hr)).2
  · rw [if_neg hb] at hr
    unfold collQuery at hr
    have h1 := List.mem_of_mem_take hr
    have h2 := (List.perm_insertionSort
      (fun a b => rank a ≤ rank b)
      (st.records.filter (fun r => matchesWhere (whereClause fl docId) r.meta))).mem_iff.mp h1
    exact (List.mem_filter.mp h2).2

theorem search_only_document (rank : Record → Nat) (st : ChromaState) (query : Str)
    (n : Nat) (fl : Option Meta) (d : Str) (r : Record)
    (hr : r ∈ search rank st query n (some d) fl) :
    mget r.meta "document_id" = some (MVal.s d) := by
  have h := mem_search_matches rank st query n (some d) fl r hr
  rw [whereClause_some_doc] at h
  exact matchesWhere_docId fl d r.meta h

theorem search_length_le (rank : Record → Nat) (st : ChromaState) (query : Str)
    (n : Nat) (docId : Option Str) (fl : Option Meta) :
    (search rank st query n docId fl).length ≤ n := by
  unfold search
  by_cases hb : isBlank query
  · rw [if_pos hb]
    exact List.length_take_le n _
  · rw [if_neg hb]
    exact List.length_take_le n _

/-! ### Claim theorems -/

/-- Claim C8: for every document id and metadata argument,
`add_chunks` on an empty chunk list returns `False` and leaves the collection
unchanged (the warning is logged, not raised). -/
theorem add_chunks_empty_is_noop (st : ChromaState) (docId : Str)
    (ms : Option (List Meta)) :
    add_chunks st docId [] ms = (st, false) := by
  unfold add_chunks
  rw [if_pos rfl]

/-- Claim C7: for a non-empty chunk list with caller-supplied metadata of
matching length, `add_chunks` appends exactly the `newRecords`, returns
`True`, and for every index `i` the appended record has id
`"{document_id}_{i}"` and metadata whose `document_id` and `chunk_index`
fields are overwritten to `str(document_id)` and `i`, regardless of what the
caller supplied. -/
theorem add_chunks_stamps_metadata (st : ChromaState) (docId : Str)
    (chunks : List Str) (ms : List Meta) (hne : chunks ≠ [])
    (hlen : ms.length = chunks.length) :
    (add_chunks st docId chunks (some ms)).1.records
        = st.records ++ newRecords docId chunks (some ms)
  ∧ (add_chunks st docId chunks (some ms)).2 = true
  ∧ (newRecords docId chunks (some ms)).length = chunks.length
  ∧ ∀ i (hi : i < (newRecords docId chunks (some ms)).length),
      ((newRecords docId chunks (some ms)).get ⟨i, hi⟩).id = chunkId docId i
    ∧ mget ((newRecords docId chunks (some ms)).get ⟨i, hi⟩).meta "document_id"
        = some (MVal.s docId)
    ∧ mget ((newRecords docId chunks (some ms)).get ⟨i, hi⟩).meta "chunk_index"
        = some (MVal.n i) := by
  refine ⟨?_, ?_, newRecords_length docId chunks ms hlen,
    fun i hi => newRecords_get docId chunks ms hlen i hi⟩
  · unfold add_chunks
    rw [if_neg hne]
  · unfold add_chunks
    rw [if_neg hne]

/-- Witness for C7 at a concrete store, document, chunk and metadata entry
whose caller-supplied `document_id` and `chunk_index` are both wrong. -/
theorem add_chunks_stamps_metadata_witness :
    (["x".toList] : List Str) ≠ []
  ∧ ([[("document_id", MVal.s ("bogus".toList)), ("chunk_index", MVal.n 41)]] :
      List Meta).length = (["x".toList] : List Str).length
  ∧ (add_chunks { records := [] } ("d1".toList) ["x".toList]
      (some [[("document_id", MVal.s ("bogus".toList)), ("chunk_index", MVal.n 41)]])).2
      = true :=
  ⟨by decide, by decide,
    (add_chunks_stamps_metadata { records := [] } ("d1".toList) ["x".toList]
      [[("document_id", MVal.s ("bogus".toList)), ("chunk_index", MVal.n 41)]]
      (by decide) (by decide)).2.1⟩

/-- Claim C2 counterexample: `chunk_text` metadata carries no `chunk_index`
key at all — on input `"hello"` it returns one metadata dict whose
`chunk_index` lookup is `none`, so `metadata[i]["chunk_index"] == i` fails. -/
theorem chunk_text_metadata_lacks_chunk_index :
    (chunk_text defaultCfg ("hello".toList) none none).2.length = 1
  ∧ ∀ m ∈ (chunk_text defaultCfg ("hello".toList) none none).2,
      mget m "chunk_index" = none := by
  decide

/-- Claim C2 (amended): `chunk_text` always returns equally long chunk and
metadata lists, but `chunk_index` is only attached downstream: when the
vector store persists the pair, the record at position `i` carries
`chunk_index = i`. -/
theorem chunk_text_len_eq_and_store_stamps_index (cfg : ChunkerConfig) (text : Str)
    (docId : Option Str) (bm : Option Meta) (d : Str) (i : Nat)
    (hi : i < (newRecords d (chunk_text cfg text docId bm).1
        (some (chunk_text cfg text docId bm).2)).length) :
    (chunk_text cfg text docId bm).1.length = (chunk_text cfg text docId bm).2.length
  ∧ mget ((newRecords d (chunk_text cfg text docId bm).1
        (some (chunk_text cfg text docId bm).2)).get ⟨i, hi⟩).meta "chunk_index"
      = some (MVal.n i) := by
  refine ⟨chunk_text_len_eq cfg text docId bm, ?_⟩
  exact (newRecords_get d _ _ (chunk_text_len_eq cfg text docId bm).symm i hi).2.2

/-- Witness for the amended C2 at `text = "hello"`, index 0. -/
theorem chunk_text_len_eq_and_store_stamps_index_witness :
    (0 < (newRecords ("d1".toList) (chunk_text defaultCfg ("hello".toList) none none).1
        (some (chunk_text defaultCfg ("hello".toList) none none).2)).length)
  ∧ (chunk_text defaultCfg ("hello".toList) none none).1.length
      = (chunk_text defaultCfg ("hello".toList) none none).2.length :=
  ⟨by decide,
    (chunk_text_len_eq_and_store_stamps_index defaultCfg ("hello".toList) none none
      ("d1".toList) 0 (by decide)).1⟩

/-- Claim C6: an empty or whitespace-only query makes `search` perform the
metadata-only `collection.get` fetch (independent of the similarity ranking),
results are bounded by `n_results`; a given `document_id` is written into the
`where` filter overriding any caller-supplied binding, and every record any
`search` call returns for that document id carries it in its metadata. -/
theorem search_empty_query_and_doc_filter (rank rank2 : Record → Nat)
    (st : ChromaState) (query : Str) (n : Nat) (docId : Option Str)
    (fl : Option Meta) (d : Str) :
    (isBlank query = true →
        search rank st query n docId fl = collGet st (whereClause fl docId) n
      ∧ search rank2 st query n docId fl = search rank st query n docId fl)
  ∧ (search rank st query n docId fl).length ≤ n
  ∧ mget (buildWhere fl (some d)) "document_id" = some (MVal.s d)
  ∧ ∀ r ∈ search rank st query n (some d) fl,
      mget r.meta "document_id" = some (MVal.s d) := by
  refine ⟨?_, search_length_le rank st query n docId fl, buildWhere_docId fl d,
    fun r hr => search_only_document rank st query n fl d r hr⟩
  intro hb
  constructor
  · unfold search
    rw [if_pos hb]
  · unfold search
    rw [if_pos hb, if_pos hb]

/-- Witness for C6 with a blank query, a concrete ranking and a filter whose
`document_id` binding disagrees with the argument. -/
theorem search_empty_query_and_doc_filter_witness :
    isBlank ([] : Str) = true
  ∧ mget (buildWhere (some [("document_id", MVal.s ("other".toList))])
      (some ("d1".toList))) "document_id" = some (MVal.s ("d1".toList)) :=
  ⟨by decide,
    (search_empty_query_and_doc_filter (fun _ => 0) (fun _ => 1) { records := [] }
      [] 1 none (some [("document_id", MVal.s ("other".toList))])
      ("d1".toList)).2.2.1⟩

/-- Claim C3 counterexample: with separator `"\n"` and `chunk_overlap = 5`,
closing a buffer of segments `["xx", "yy", "zz"]` seeds the next buffer with
`["yy", "zz"]`, whose cumulative length counting one separator per added
segment is 6 > 5 — the cumulative length does not stay within the
`chunk_overlap` budget as the claim states it. -/
theorem overlap_seed_exceeds_budget :
    0 < olCfg.chunk_overlap
  ∧ (closeChunk olCfg none none olSt).cur = ["yy".toList, "zz".toList]
  ∧ olCfg.chunk_overlap
      < segCost olCfg.separator.length (closeChunk olCfg none none olSt).cur := by
  decide

/-- Claim C3 (amended): when a chunk closes, the next buffer is empty if
`chunk_overlap = 0`; otherwise it is the suffix of the closed buffer obtained
by walking it in reverse and admitting a segment while the sum of
`length + separator` over previously admitted segments plus the candidate's
own length (its own separator not yet counted) stays ≤ `chunk_overlap`,
stopping at the first segment failing that check (`overlapSeedSpec`). -/
theorem closeChunk_overlap_seeding (cfg : ChunkerConfig) (docId : Option Str)
    (bm : Option Meta) (st : ChunkState) :
    (cfg.chunk_overlap = 0 →
        (closeChunk cfg docId bm st).cur = []
      ∧ (closeChunk cfg docId bm st).curLen = 0)
  ∧ (0 < cfg.chunk_overlap →
      (closeChunk cfg docId bm st).cur
        = overlapSeedSpec cfg.separator.length cfg.chunk_overlap st.cur)
  ∧ (closeChunk cfg docId bm st).cur <:+ st.cur := by
  have hcur : (closeChunk cfg docId bm st).cur =
      (if 0 < cfg.chunk_overlap then overlapSplits cfg st.cur
        else (([] : List Str), 0)).1 := rfl
  have hclen : (closeChunk cfg docId bm st).curLen =
      (if 0 < cfg.chunk_overlap then overlapSplits cfg st.cur
        else (([] : List Str), 0)).2 := rfl
  by_cases h : 0 < cfg.chunk_overlap
  · have hc2 : (closeChunk cfg docId bm st).cur
        = overlapSeedSpec cfg.separator.length cfg.chunk_overlap st.cur := by
      rw [hcur, if_pos h]
      unfold overlapSplits overlapSeedSpec
      rw [overlapGo_fst_eq_spec]
      simp
    refine ⟨fun h0 => absurd h (by omega), fun _ => hc2, ?_⟩
    rw [hc2]
    exact overlapSeedSpec_suffix _ _ _
  · refine ⟨fun _ => ⟨by rw [hcur, if_neg h], by rw [hclen, if_neg h]⟩,
      fun hpos => absurd hpos h, ?_⟩
    rw [hcur, if_neg h]
    exact List.nil_suffix

/-- Witness for the amended C3 at the concrete overlap scenario. -/
theorem closeChunk_overlap_seeding_witness :
    0 < olCfg.chunk_overlap
  ∧ (closeChunk olCfg none none olSt).cur
      = overlapSeedSpec olCfg.separator.length olCfg.chunk_overlap olSt.cur :=
  ⟨by decide, (closeChunk_overlap_seeding olCfg none none olSt).2.1 (by decide)⟩

/-- Claim C1 counterexample: under `capCfg` the input `capText` yields 5
candidate chunks when uncapped, yet with `max_chunks = 2` the output has 3
chunks — not exactly 2 as claimed: after the cap stops the loop, the
in-progress buffer is still flushed as one more chunk. -/
theorem chunk_text_cap_counterexample :
    (chunk_text { capCfg with max_chunks := 1000 } capText none none).1.length = 5
  ∧ (chunk_text capCfg capText none none).1.length ≠ 2 := by
  decide

/-- Claim C1 (amended): once the number of closed chunks reaches
`max_chunks`, `chunk_text` stops consuming further segments (remaining input
is dropped), but the in-progress buffer is still flushed, so the returned
chunk list has at most `max_chunks + 1` entries; concretely, with
`max_chunks = 2` and five candidate chunks, the output is exactly
`["aa", "bb", "cc"]` — three chunks, the segments `dd`/`ee` dropped. -/
theorem chunk_text_cap_plus_one :
    (∀ (cfg : ChunkerConfig) (text : Str) (docId : Option Str) (bm : Option Meta),
      (chunk_text cfg text docId bm).1.length ≤ cfg.max_chunks + 1)
  ∧ (chunk_text capCfg capText none none).1
      = ["aa".toList, "bb".toList, "cc".toList] := by
  constructor
  · intro cfg text docId bm
    by_cases ht : text = []
    · subst ht
      simp [chunk_text]
    · rw [chunk_text_of_ne cfg text docId bm ht]
      have h1 := flushLast_chunks_le cfg docId bm (chunkLoop cfg docId bm
        (pySplit cfg.separator (normalizeCRLF text))
        { chunks := [], metas := [], cur := [], curLen := 0 })
      have h2 := chunkLoop_cap cfg docId bm
        (pySplit cfg.separator (normalizeCRLF text))
        { chunks := [], metas := [], cur := [], curLen := 0 }
        (Or.inr ⟨by simp, rfl⟩)
      dsimp only
      omega
  · decide

/-- Claim C5 counterexample: `" "` is non-empty and shorter than
`chunk_size`, yet `chunk_text` returns no chunk at all (the only segment is
whitespace and is dropped), refuting "exactly one chunk". -/
theorem chunk_text_blank_text_counterexample :
    (" ".toList : Str) ≠ []
  ∧ (" ".toList : Str).length < defaultCfg.chunk_size
  ∧ chunk_text defaultCfg (" ".toList) none none = ([], []) := by
  decide

/-- Claim C5 (amended): `chunk_text ""` returns `([], [])`; for text shorter
than `chunk_size` the result has at most one chunk, and exactly one as soon
as some segment of the split is not blank (whitespace-only text yields
none). -/
theorem chunk_text_small_input (cfg : ChunkerConfig) (text : Str)
    (docId : Option Str) (bm : Option Meta) (hsep : cfg.separator ≠ [])
    (hlen : text.length < cfg.chunk_size) :
    chunk_text cfg [] docId bm = ([], [])
  ∧ (chunk_text cfg text docId bm).1.length ≤ 1
  ∧ ((∃ s ∈ pySplit cfg.separator (normalizeCRLF text), isBlank s = false) →
      (chunk_text cfg text docId bm).1.length = 1) := by
  refine ⟨by simp [chunk_text], ?_⟩
  by_cases ht : text = []
  · subst ht
    constructor
    · simp [chunk_text]
    · rintro ⟨s, hs, hsb⟩
      cases sep : cfg.separator with
      | nil => exact absurd sep hsep
      | cons c0 sep' =>
        rw [sep] at hs
        have : s = [] := by
          simpa [normalizeCRLF, pySplit, pySplitGo] using hs
        rw [this] at hsb
        simp [isBlank] at hsb
  · have hT : (normalizeCRLF text).length < cfg.chunk_size :=
      Nat.lt_of_le_of_lt (normalizeCRLF_length_le text) hlen
    have hinv : (0 : Nat) + segCost cfg.separator.length
        (pySplit cfg.separator (normalizeCRLF text))
        ≤ (normalizeCRLF text).length + cfg.separator.length := by
      rw [segCost_pySplit _ _ hsep]
      omega
    have hloop := chunkLoop_no_close cfg docId bm (normalizeCRLF text).length hT
      (pySplit cfg.separator (normalizeCRLF text))
      { chunks := [], metas := [], cur := [], curLen := 0 } rfl rfl hinv
    have hflush := flushLast_chunks_of_empty cfg docId bm
      (chunkLoop cfg docId bm (pySplit cfg.separator (normalizeCRLF text))
        { chunks := [], metas := [], cur := [], curLen := 0 }) hloop.1
    rw [chunk_text_of_ne cfg text docId bm ht]
    constructor
    · dsimp only
      rw [hflush]
      split_ifs <;> omega
    · intro hex
      have hcur := chunkLoop_cur_ne_of_nonblank cfg docId bm
        (pySplit cfg.separator (normalizeCRLF text))
        { chunks := [], metas := [], cur := [], curLen := 0 } hex
      dsimp only
      rw [hflush, if_neg hcur]

/-- Witness for the amended C5: the default configuration with text `"hi"`. -/
theorem chunk_text_small_input_witness :
    defaultCfg.separator ≠ []
  ∧ ("hi".toList : Str).length < defaultCfg.chunk_size
  ∧ (chunk_text defaultCfg ("hi".toList) none none).1.length ≤ 1 :=
  ⟨by decide, by decide,
    (chunk_text_small_input defaultCfg ("hi".toList) none none
      (by decide) (by decide)).2.1⟩

/-- Claim C9: `create_chunk_with_context` locates the first literal
occurrence of the chunk in the source — if one exists the result is the slice
from `max(0, start - window)` to `min(len(source), end + window)` around that
first occurrence; if the chunk does not occur, the chunk is returned
unchanged. -/
theorem create_chunk_with_context_spec (ck source : Str) (w : Nat) :
    ((∃ j, ck <+: source.drop j) →
      ∃ s, (ck <+: source.drop s) ∧ (∀ j, j < s → ¬ ck <+: source.drop j) ∧
        create_chunk_with_context ck source w =
          pySlice source (s - w) (min source.length (s + ck.length + w)))
  ∧ ((∀ j, ¬ ck <+: source.drop j) → create_chunk_with_context ck source w = ck) := by
  cases hf : pyFind ck source with
  | none =>
    constructor
    · rintro ⟨j, hj⟩
      exact absurd hj (pyFind_none ck source hf j)
    · intro _
      unfold create_chunk_with_context
      rw [hf]
  | some s =>
    constructor
    · intro _
      obtain ⟨hpre, hmin⟩ := pyFind_some ck source s hf
      refine ⟨s, hpre, hmin, ?_⟩
      unfold create_chunk_with_context
      rw [hf]
    · intro hall
      exact absurd (pyFind_some ck source s hf).1 (hall s)

/-- Witness for C9: `"bb"` occurs in `"aabbcc"` (first at index 2) and the
expansion with window 1 follows the slice rule. -/
theorem create_chunk_with_context_spec_witness :
    (("bb".toList : Str) <+: (("aabbcc".toList : Str).drop 2))
  ∧ ∃ s, (("bb".toList : Str) <+: (("aabbcc".toList : Str).drop s))
      ∧ (∀ j, j < s → ¬ ("bb".toList : Str) <+: (("aabbcc".toList : Str).drop j))
      ∧ create_chunk_with_context ("bb".toList) ("aabbcc".toList) 1 =
          pySlice ("aabbcc".toList) (s - 1)
            (min ("aabbcc".toList : Str).length (s + ("bb".toList : Str).length + 1)) :=
  ⟨by decide,
    (create_chunk_with_context_spec ("bb".toList) ("aabbcc".toList) 1).1
      ⟨2, by decide⟩⟩

/-- Claim C10: in the per-chunk metadata of `chunk_text`, the caller's base
metadata is merged over the computed `length` key — a `length` key in the
base metadata overwrites the computed joined-chunk length — while a non-empty
`document_id` argument is set last and overwrites any `document_id` carried in
the base metadata. -/
theorem chunk_meta_merge_order (cfg : ChunkerConfig) (text : Str) (base : Meta)
    (d : Str) (v : MVal) (hnd : (base.map Prod.fst).Nodup) :
    (mget base "length" = some v →
      ∀ m ∈ (chunk_text cfg text (some d) (some base)).2, mget m "length" = some v)
  ∧ (d ≠ [] →
      ∀ m ∈ (chunk_text cfg text (some d) (some base)).2,
        mget m "document_id" = some (MVal.s d)) := by
  constructor
  · intro hv m hm
    obtain ⟨ck, rfl⟩ := chunk_text_metas_shape cfg text (some d) (some base) m hm
    exact mget_mkChunkMeta_length base (some d) ck v hnd hv
  · intro hd m hm
    obtain ⟨ck, rfl⟩ := chunk_text_metas_shape cfg text (some d) (some base) m hm
    exact mget_mkChunkMeta_docId (some base) d ck hd

/-- Witness for C10: a base metadata carrying a bogus `length` and a bogus
`document_id`; both are observed in the produced metadata per the theorem. -/
theorem chunk_meta_merge_order_witness :
    ((([("length", MVal.n 99), ("document_id", MVal.s ("junk".toList))] : Meta).map
        Prod.fst).Nodup)
  ∧ (mget ([("length", MVal.n 99), ("document_id", MVal.s ("junk".toList))] : Meta)
        "length" = some (MVal.n 99))
  ∧ ∀ m ∈ (chunk_text defaultCfg ("hello".toList) (some ("d1".toList))
        (some [("length", MVal.n 99), ("document_id", MVal.s ("junk".toList))])).2,
      mget m "length" = some (MVal.n 99) :=
  ⟨by decide, by decide,
    (chunk_meta_merge_order defaultCfg ("hello".toList)
      [("length", MVal.n 99), ("document_id", MVal.s ("junk".toList))]
      ("d1".toList) (MVal.n 99) (by decide)).1 (by decide)⟩

/-- Claim C4 (code-bug evidence): `process_chunks` never issues a delete to
the vector store — its operation trace contains no `deleteDoc` for any id —
and re-ingesting a document therefore leaves stale chunks: after ingesting
`exTextA` (two chunks) and re-ingesting `exTextB` (one chunk) for the same
document id, the store still holds a record with id `"d1_1"` from the first
ingestion. -/
theorem process_chunks_no_delete_leaves_stale_chunk :
    (∀ (cfg : PdfCfg) (docId text d : Str),
      VecOp.deleteDoc d ∉ processChunksOps cfg docId text)
  ∧ (chunk_text exPdfCfg.chunker exTextB (some exDoc)
      (some (processChunksBaseMeta exPdfCfg exDoc))).1.length = 1
  ∧ (∃ r ∈ (process_chunks exPdfCfg
        (process_chunks exPdfCfg { records := [] } exDoc exTextA)
        exDoc exTextB).records,
      r.id = chunkId exDoc 1) := by
  refine ⟨?_, by decide, by decide⟩
  intro cfg docId text d
  unfold processChunksOps
  by_cases h : (chunk_text cfg.chunker text (some docId)
      (some (processChunksBaseMeta cfg docId))).1 = []
  · simp [h]
  · simp [h]

end ReportAnalysis
